import Mathlib

/-!
Verification development for the hex-grid selection-and-pathing core of the
ant-colony RTS prototype (`src/main.rs`).  The embedding below translates the
data model and the operations `handle_click`, `handle_box_select`, `move_ants`
and the pointer-source choice in `ant_input` into Lean, together with models of
the hexx grid primitives (`ring`, `spiral_range`, `line_to`, layout
conversions) that the program calls but whose source lives in the external
`hexx` crate.
-/

namespace AntSim

/-- Axial hex coordinate (hexx `Hex`): two signed integers q, r. -/
structure Hex where
  q : ℤ
  r : ℤ
deriving DecidableEq, Repr

/-- Componentwise addition of axial coordinates. -/
def hexAdd (a b : Hex) : Hex := ⟨a.q + b.q, a.r + b.r⟩

/-- Componentwise subtraction of axial coordinates. -/
def hexSub (a b : Hex) : Hex := ⟨a.q - b.q, a.r - b.r⟩

/-- Hex length of an axial coordinate: half the sum of the absolute cube
coordinates `|q| + |r| + |q+r|` (the cube `s` coordinate is `-q-r`). -/
def hexLength (h : Hex) : ℕ := (h.q.natAbs + h.r.natAbs + (h.q + h.r).natAbs) / 2

/-- Grid distance between two cells: length of their difference. -/
def hexDistance (a b : Hex) : ℕ := hexLength (hexSub b a)

theorem hexLength_eq_zero_iff (h : Hex) : hexLength h = 0 ↔ h = ⟨0, 0⟩ := by
  obtain ⟨q, r⟩ := h
  simp only [hexLength, Hex.mk.injEq]
  omega

theorem hexDistance_eq_zero_iff (a b : Hex) : hexDistance a b = 0 ↔ a = b := by
  obtain ⟨q, r⟩ := a
  obtain ⟨q', r'⟩ := b
  simp only [hexDistance, hexSub, hexLength, Hex.mk.injEq]
  omega

/-- List of `n` consecutive integers starting at `lo`. -/
def intRange (lo : ℤ) (n : ℕ) : List ℤ := (List.range n).map (fun i : ℕ => lo + (i : ℤ))

theorem mem_intRange {lo : ℤ} {n : ℕ} {x : ℤ} :
    x ∈ intRange lo n ↔ lo ≤ x ∧ x < lo + n := by
  simp only [intRange, List.mem_map, List.mem_range]
  constructor
  · rintro ⟨i, hi, rfl⟩
    omega
  · intro ⟨h1, h2⟩
    refine ⟨(x - lo).toNat, ?_, ?_⟩ <;> omega

theorem intRange_nodup (lo : ℤ) (n : ℕ) : (intRange lo n).Nodup := by
  refine List.Nodup.map ?_ (List.nodup_range n)
  intro a b hab
  simpa using hab

/-- All axial coordinates whose components both lie in `[-r, r]`. -/
def cellsIn (r : ℕ) : List Hex :=
  (intRange (-(r : ℤ)) (2 * r + 1)).flatMap
    (fun q => (intRange (-(r : ℤ)) (2 * r + 1)).map (fun s => ⟨q, s⟩))

theorem mem_cellsIn {r : ℕ} {h : Hex} :
    h ∈ cellsIn r ↔ -(r : ℤ) ≤ h.q ∧ h.q ≤ r ∧ -(r : ℤ) ≤ h.r ∧ h.r ≤ r := by
  obtain ⟨hq, hr⟩ := h
  simp only [cellsIn, List.mem_flatMap, List.mem_map]
  constructor
  · rintro ⟨q, hqmem, s, hsmem, heq⟩
    rw [mem_intRange] at hqmem hsmem
    injection heq with e1 e2
    subst e1; subst e2
    omega
  · intro ⟨h1, h2, h3, h4⟩
    refine ⟨hq, ?_, hr, ?_, rfl⟩ <;> rw [mem_intRange] <;> omega

theorem cellsIn_nodup (r : ℕ) : (cellsIn r).Nodup := by
  rw [cellsIn, List.nodup_flatMap]
  constructor
  · intro q _
    refine List.Nodup.map ?_ (intRange_nodup _ _)
    intro a b hab
    injection hab
  · apply (intRange_nodup _ _).pairwise_of_forall_ne
    intro a _ b _ hne
    simp only [Function.onFun, List.Disjoint, List.mem_map]
    rintro x ⟨s, _, rfl⟩ ⟨s', _, hx⟩
    injection hx with h1 h2
    exact hne h1.symm

/-- Modelled from the spec: hexx `Hex::ring` — the neighbor ring at grid
distance exactly `r` around a center (spec 4.1).  The within-ring enumeration
order of the hexx crate is not reproduced; no claim depends on it. -/
def hexRing (c : Hex) (r : ℕ) : List Hex :=
  ((cellsIn r).filter (fun h => decide (hexLength h = r))).map (hexAdd c)

theorem hexAdd_injective (c : Hex) : Function.Injective (hexAdd c) := by
  intro a b hab
  have h1 := congrArg Hex.q hab
  have h2 := congrArg Hex.r hab
  simp only [hexAdd] at h1 h2
  obtain ⟨aq, ar⟩ := a
  obtain ⟨bq, br⟩ := b
  simp only at h1 h2
  simp only [Hex.mk.injEq]
  omega

theorem mem_hexRing {c : Hex} {r : ℕ} {h : Hex} :
    h ∈ hexRing c r ↔ hexDistance c h = r := by
  simp only [hexRing, List.mem_map, List.mem_filter, decide_eq_true_eq]
  constructor
  · rintro ⟨o, ⟨_, holen⟩, rfl⟩
    obtain ⟨cq, cr⟩ := c
    obtain ⟨oq, os⟩ := o
    simp only [hexDistance, hexSub, hexAdd, hexLength] at holen ⊢
    omega
  · intro hd
    refine ⟨hexSub h c, ⟨?_, ?_⟩, ?_⟩
    · rw [mem_cellsIn]
      obtain ⟨cq, cr⟩ := c
      obtain ⟨hq, hr⟩ := h
      simp only [hexDistance, hexSub, hexLength] at hd
      simp only [hexSub]
      omega
    · exact hd
    · obtain ⟨cq, cr⟩ := c
      obtain ⟨hq, hr⟩ := h
      simp only [hexAdd, hexSub, Hex.mk.injEq]
      omega

theorem hexRing_nodup (c : Hex) (r : ℕ) : (hexRing c r).Nodup := by
  exact ((cellsIn_nodup r).filter _).map (hexAdd_injective c)

/-- Modelled from the spec: hexx `Hex::spiral_range` over a radius range
`0..n` — the rings at radii `0, 1, …, n-1` concatenated center-outward
(spec 4.1: "spiral range … ordered center-outward ring by ring"). -/
def spiralRange (c : Hex) (n : ℕ) : List Hex :=
  (List.range n).flatMap (hexRing c)

theorem mem_spiralRange {c : Hex} {n : ℕ} {h : Hex} :
    h ∈ spiralRange c n ↔ hexDistance c h < n := by
  simp only [spiralRange, List.mem_flatMap, List.mem_range]
  constructor
  · rintro ⟨r, hr, hmem⟩
    rw [mem_hexRing] at hmem
    omega
  · intro hd
    exact ⟨hexDistance c h, hd, mem_hexRing.mpr rfl⟩

theorem spiralRange_succ (c : Hex) (n : ℕ) :
    spiralRange c (n + 1) = spiralRange c n ++ hexRing c n := by
  rw [spiralRange, List.range_succ, List.flatMap_append]
  simp [spiralRange]

theorem spiralRange_nodup (c : Hex) (n : ℕ) : (spiralRange c n).Nodup := by
  induction n with
  | zero => simp [spiralRange]
  | succ n ih =>
    rw [spiralRange_succ, List.nodup_append]
    refine ⟨ih, hexRing_nodup c n, ?_⟩
    intro a ha hb
    rw [mem_spiralRange] at ha
    rw [mem_hexRing] at hb
    omega

/-- The spiral enumeration is center-outward: grid distances to the center
appear in nondecreasing order. -/
theorem spiralRange_sorted (c : Hex) (n : ℕ) :
    (spiralRange c n).Pairwise (fun a b => hexDistance c a ≤ hexDistance c b) := by
  induction n with
  | zero => simp [spiralRange]
  | succ n ih =>
    rw [spiralRange_succ, List.pairwise_append]
    refine ⟨ih, ?_, ?_⟩
    · apply List.pairwise_of_forall_mem_list
      intro a ha b hb
      rw [mem_hexRing] at ha hb
      omega
    · intro a ha b hb
      rw [mem_spiralRange] at ha
      rw [mem_hexRing] at hb
      omega

theorem cellsIn_zero : cellsIn 0 = [⟨0, 0⟩] := by rfl

theorem hexRing_zero (c : Hex) : hexRing c 0 = [c] := by
  rw [hexRing, cellsIn_zero]
  obtain ⟨cq, cr⟩ := c
  simp [hexAdd, hexLength]

theorem spiralRange_head (c : Hex) (n : ℕ) (hn : 0 < n) :
    (spiralRange c n).head? = some c := by
  obtain ⟨m, rfl⟩ : ∃ m, n = m + 1 := ⟨n - 1, by omega⟩
  rw [spiralRange, List.range_succ_eq_map]
  simp only [List.flatMap_cons]
  rw [hexRing_zero]
  rfl

/-- Rounding of fractional axial coordinates to the nearest hex, following
hexx `Hex::round`: round both components, then correct the component with the
larger remainder.  Exact rational arithmetic stands in for the f32 of the
crate. -/
def roundHexQ (v : ℚ × ℚ) : Hex :=
  let xr := round v.1
  let yr := round v.2
  let x := v.1 - xr
  let y := v.2 - yr
  if |y| ≤ |x| then ⟨xr + round (x + y / 2), yr⟩
  else ⟨xr, yr + round (y + x / 2)⟩

/-- Modelled from the spec: hexx `Hex::line_to` (spec 4.1) — the straight-line
grid walk from `a` to `b` inclusive, with step count equal to the grid
distance: point `i` of `d+1` is the rounding of the linear interpolation at
parameter `i/d`. -/
def lineTo (a b : Hex) : List Hex :=
  let d := hexDistance a b
  let n : ℚ := max 1 (d : ℚ)
  (List.range (d + 1)).map (fun i : ℕ =>
    roundHexQ ((a.q : ℚ) + ((b.q : ℚ) - (a.q : ℚ)) * ((i : ℚ) / n),
               (a.r : ℚ) + ((b.r : ℚ) - (a.r : ℚ)) * ((i : ℚ) / n)))

theorem lineTo_length (a b : Hex) : (lineTo a b).length = hexDistance a b + 1 := by
  simp [lineTo]

theorem lineTo_drop_one_eq_nil_iff (a b : Hex) : (lineTo a b).drop 1 = [] ↔ a = b := by
  rw [← List.length_eq_zero, List.length_drop, lineTo_length]
  rw [← hexDistance_eq_zero_iff a b]
  omega

/-- The per-unit components read and written by `handle_click`: the continuous
position (the Transform), the immediate motion target (TargetPosition), the
waypoint queue (Path), and presence of the Selected marker — exactly the data
reachable from that system's queries.  The position type is a parameter: the
click logic only ever feeds positions to the layout conversions. -/
structure UnitCore (P : Type) where
  pos : P
  target : P
  path : List P
  selected : Bool
deriving DecidableEq, Repr

/-- Index of the first unit whose current cell equals the clicked cell, in
iteration order (`handle_click` lines 280-289). -/
def findHit {P : Type} (w2h : P → Hex) (cHex : Hex) : List (UnitCore P) → Option ℕ
  | [] => none
  | u :: us =>
    if w2h u.pos = cHex then some 0
    else (findHit w2h cHex us).map (fun j => j + 1)

/-- Toggle the Selected marker of the unit at index `j`, leaving every other
unit alone (`handle_click` lines 291-334). -/
def toggleAt {P : Type} : List (UnitCore P) → ℕ → List (UnitCore P)
  | [], _ => []
  | u :: us, 0 => { u with selected := !u.selected } :: us
  | u :: us, j + 1 => u :: toggleAt us j

/-- Occupied-cell set: target cells of the non-selected units
(`handle_click` lines 339-349).  Only membership is ever queried, so a list
models the HashSet. -/
def occupiedOf {P : Type} (w2h : P → Hex) (units : List (UnitCore P)) : List Hex :=
  (units.filter (fun u => !u.selected)).map (fun u => w2h u.target)

/-- Number of selected units (`selected_entities.len()`, line 355). -/
def countSel {P : Type} (units : List (UnitCore P)) : ℕ :=
  (units.filter (fun u => u.selected)).length

/-- Candidate walk (lines 358-389): skip candidates already in the occupied
set `occ`, otherwise accept the candidate, add it to the occupied set, and
stop as soon as `need` cells are accepted.  `acc` holds the accepted cells in
reverse order. -/
def availLoop (need : ℕ) : List Hex → List Hex → List Hex → List Hex
  | _, acc, [] => acc.reverse
  | occ, acc, c :: cs =>
    if c ∈ occ then availLoop need occ acc cs
    else if need ≤ acc.length + 1 then (c :: acc).reverse
    else availLoop need (c :: occ) (c :: acc) cs

/-- Candidate destination cells a move order enumerates, in order: the call
`target_hex.spiral_range(0..10)` at line 359. -/
def moveCandidates (tHex : Hex) : List Hex := spiralRange tHex 10

/-- Destination cells a move order at anchor cell `tHex` assigns, in
assignment order (`available_hexes` after the candidate walk). -/
def destsAssigned {P : Type} (w2h : P → Hex) (tHex : Hex)
    (units : List (UnitCore P)) : List Hex :=
  availLoop (countSel units) (occupiedOf w2h units) [] (moveCandidates tHex)

/-- Path generation and target update for one unit that received destination
cell `d` (lines 395-417): the line walk minus its first cell becomes the new
queue, then the first waypoint is popped into the target; an empty route sets
the target to the destination cell's world position directly. -/
def applyDest {P : Type} (w2h : P → Hex) (h2w : Hex → P) (d : Hex)
    (u : UnitCore P) : UnitCore P :=
  match ((lineTo (w2h u.pos) d).drop 1).map h2w with
  | [] => { u with path := [], target := h2w d }
  | t :: rest => { u with path := rest, target := t }

/-- Assignment loop (lines 392-422): walk the units in order, handing each
selected unit the next remaining available destination; selected units beyond
the available list, and all unselected units, are left unchanged. -/
def assignTargets {P : Type} (w2h : P → Hex) (h2w : Hex → P) :
    List Hex → List (UnitCore P) → List (UnitCore P)
  | _, [] => []
  | avail, u :: us =>
    if u.selected then
      match avail with
      | [] => u :: assignTargets w2h h2w [] us
      | d :: rest => applyDest w2h h2w d u :: assignTargets w2h h2w rest us
    else u :: assignTargets w2h h2w avail us

/-- Remove the Selected marker from every selected unit (lines 424-428). -/
def clearSelection {P : Type} (units : List (UnitCore P)) : List (UnitCore P) :=
  units.map (fun u => if u.selected then { u with selected := false } else u)

/-- Move-order branch of `handle_click` (lines 335-429): no-op when nothing is
selected; otherwise assign destinations from the candidate walk and clear the
whole selection when no destination was available. -/
def moveOrder {P : Type} (w2h : P → Hex) (h2w : Hex → P) (tHex : Hex)
    (units : List (UnitCore P)) : List (UnitCore P) :=
  if units.all (fun u => !u.selected) then units
  else
    let avail := destsAssigned w2h tHex units
    let units' := assignTargets w2h h2w avail units
    if avail.isEmpty then clearSelection units' else units'

/-- Click resolution `handle_click` (lines 264-430): if some unit occupies the
clicked cell, toggle the first such unit's Selected marker; otherwise treat
the click as a move order anchored at the clicked cell. -/
def handleClick {P : Type} (w2h : P → Hex) (h2w : Hex → P) (p : P)
    (units : List (UnitCore P)) : List (UnitCore P) :=
  match findHit w2h (w2h p) units with
  | some j => toggleAt units j
  | none => moveOrder w2h h2w (w2h p) units

theorem toggleAt_length {P : Type} (l : List (UnitCore P)) (j : ℕ) :
    (toggleAt l j).length = l.length := by
  induction l generalizing j with
  | nil => rfl
  | cons u us ih =>
    cases j with
    | zero => rfl
    | succ j => simp [toggleAt, ih]

theorem toggleAt_getElem_self {P : Type} (l : List (UnitCore P)) (j : ℕ) (u : UnitCore P)
    (hu : l[j]? = some u) :
    (toggleAt l j)[j]? = some { u with selected := !u.selected } := by
  induction l generalizing j with
  | nil => simp at hu
  | cons v vs ih =>
    cases j with
    | zero =>
      have hv : v = u := by simpa using hu
      subst hv
      simp [toggleAt]
    | succ j =>
      simp only [List.getElem?_cons_succ] at hu
      simpa [toggleAt] using ih j hu

theorem toggleAt_getElem_ne {P : Type} (l : List (UnitCore P)) (j k : ℕ) (hk : k ≠ j) :
    (toggleAt l j)[k]? = l[k]? := by
  induction l generalizing j k with
  | nil => rfl
  | cons v vs ih =>
    cases j with
    | zero =>
      cases k with
      | zero => exact absurd rfl hk
      | succ k => simp [toggleAt]
    | succ j =>
      cases k with
      | zero => simp [toggleAt]
      | succ k => simpa [toggleAt] using ih j k (by omega)

theorem toggleAt_toggleAt {P : Type} (l : List (UnitCore P)) (j : ℕ) :
    toggleAt (toggleAt l j) j = l := by
  induction l generalizing j with
  | nil => rfl
  | cons v vs ih =>
    cases j with
    | zero => simp [toggleAt]
    | succ j => simp [toggleAt, ih]

theorem findHit_toggleAt {P : Type} (w2h : P → Hex) (cHex : Hex)
    (l : List (UnitCore P)) (j : ℕ) :
    findHit w2h cHex (toggleAt l j) = findHit w2h cHex l := by
  induction l generalizing j with
  | nil => rfl
  | cons v vs ih =>
    cases j with
    | zero => simp [toggleAt, findHit]
    | succ j => simp [toggleAt, findHit, ih]

theorem findHit_lt {P : Type} {w2h : P → Hex} {cHex : Hex}
    {l : List (UnitCore P)} {j : ℕ} (h : findHit w2h cHex l = some j) :
    j < l.length := by
  induction l generalizing j with
  | nil => exact Option.noConfusion h
  | cons v vs ih =>
    simp only [findHit] at h
    by_cases hv : w2h v.pos = cHex
    · rw [if_pos hv] at h
      cases h
      simp
    · rw [if_neg hv] at h
      cases hj : findHit w2h cHex vs with
      | none => rw [hj] at h; simp at h
      | some j' =>
        rw [hj] at h
        simp only [Option.map_some', Option.some.injEq] at h
        subst h
        have := ih hj
        simp only [List.length_cons]
        omega

/-- Number of selected units strictly before index `i`: the destination slot a
selected unit at index `i` competes for in the assignment loop. -/
def rankSel {P : Type} : List (UnitCore P) → ℕ → ℕ
  | [], _ => 0
  | _ :: _, 0 => 0
  | u :: us, i + 1 => rankSel us i + (if u.selected then 1 else 0)

theorem applyDest_selected {P : Type} (w2h : P → Hex) (h2w : Hex → P)
    (d : Hex) (u : UnitCore P) : (applyDest w2h h2w d u).selected = u.selected := by
  rw [applyDest]
  split <;> rfl

theorem applyDest_pos {P : Type} (w2h : P → Hex) (h2w : Hex → P)
    (d : Hex) (u : UnitCore P) : (applyDest w2h h2w d u).pos = u.pos := by
  rw [applyDest]
  split <;> rfl

theorem assignTargets_length {P : Type} (w2h : P → Hex) (h2w : Hex → P)
    (avail : List Hex) (units : List (UnitCore P)) :
    (assignTargets w2h h2w avail units).length = units.length := by
  induction units generalizing avail with
  | nil => rfl
  | cons u us ih =>
    simp only [assignTargets]
    by_cases hsel : u.selected
    · rw [if_pos hsel]
      cases avail <;> simp [ih]
    · rw [if_neg hsel]
      simp [ih]

theorem assignTargets_nil_avail {P : Type} (w2h : P → Hex) (h2w : Hex → P)
    (units : List (UnitCore P)) : assignTargets w2h h2w [] units = units := by
  induction units with
  | nil => rfl
  | cons u us ih =>
    simp only [assignTargets]
    by_cases hsel : u.selected
    · rw [if_pos hsel, ih]
    · rw [if_neg hsel, ih]

theorem assignTargets_getElem {P : Type} (w2h : P → Hex) (h2w : Hex → P)
    (avail : List Hex) (units : List (UnitCore P)) (i : ℕ) (u : UnitCore P)
    (hu : units[i]? = some u) :
    (assignTargets w2h h2w avail units)[i]? =
      some (if u.selected then
              match avail[rankSel units i]? with
              | some d => applyDest w2h h2w d u
              | none => u
            else u) := by
  induction units generalizing avail i with
  | nil => simp at hu
  | cons v vs ih =>
    cases i with
    | zero =>
      have hv : v = u := by simpa using hu
      subst hv
      by_cases hsel : v.selected
      · cases avail with
        | nil => simp [assignTargets, hsel, rankSel]
        | cons d rest => simp [assignTargets, hsel, rankSel]
      · simp [assignTargets, hsel, rankSel]
    | succ i =>
      simp only [List.getElem?_cons_succ] at hu
      by_cases hsel : v.selected
      · cases avail with
        | nil =>
          simp only [assignTargets, if_pos hsel]
          simp only [List.getElem?_cons_succ]
          rw [ih [] i hu]
          simp [rankSel, hsel]
        | cons d rest =>
          simp only [assignTargets, if_pos hsel]
          simp only [List.getElem?_cons_succ]
          rw [ih rest i hu]
          simp [rankSel, hsel]
      · simp only [assignTargets, if_neg hsel]
        simp only [List.getElem?_cons_succ]
        rw [ih avail i hu]
        simp [rankSel, hsel]

theorem availLoop_nodup (need : ℕ) (cands occ acc : List Hex)
    (hacc : acc.Nodup) (hsub : ∀ a ∈ acc, a ∈ occ) :
    (availLoop need occ acc cands).Nodup := by
  induction cands generalizing occ acc with
  | nil => exact List.nodup_reverse.mpr hacc
  | cons c cs ih =>
    simp only [availLoop]
    by_cases h1 : c ∈ occ
    · rw [if_pos h1]
      exact ih occ acc hacc hsub
    · rw [if_neg h1]
      by_cases h2 : need ≤ acc.length + 1
      · rw [if_pos h2, List.nodup_reverse]
        exact List.nodup_cons.mpr ⟨fun hm => h1 (hsub c hm), hacc⟩
      · rw [if_neg h2]
        refine ih (c :: occ) (c :: acc)
          (List.nodup_cons.mpr ⟨fun hm => h1 (hsub c hm), hacc⟩) ?_
        intro a ha
        rcases List.mem_cons.mp ha with rfl | ha
        · exact List.mem_cons_self _ _
        · exact List.mem_cons_of_mem _ (hsub a ha)

theorem clearSel_eq {P : Type} (u : UnitCore P) :
    (if u.selected then { u with selected := false } else u)
      = { u with selected := false } := by
  obtain ⟨p, t, pa, s⟩ := u
  cases s <;> rfl

theorem clearSelection_getElem {P : Type} (units : List (UnitCore P)) (i : ℕ) :
    (clearSelection units)[i]? =
      units[i]?.map (fun u => { u with selected := false }) := by
  simp only [clearSelection, List.getElem?_map]
  cases units[i]? with
  | none => rfl
  | some u => simp [clearSel_eq]

theorem clearSelection_length {P : Type} (units : List (UnitCore P)) :
    (clearSelection units).length = units.length := by
  simp [clearSelection]

theorem toggleAt_pos {P : Type} (l : List (UnitCore P)) (j i : ℕ) :
    ((toggleAt l j)[i]?).map (fun u => u.pos) = (l[i]?).map (fun u => u.pos) := by
  by_cases hij : i = j
  · subst hij
    cases hu : l[i]? with
    | none =>
      have hlen : l.length ≤ i := List.getElem?_eq_none_iff.mp hu
      rw [List.getElem?_eq_none (by rw [toggleAt_length]; exact hlen)]
    | some u =>
      rw [toggleAt_getElem_self l i u hu]
      rfl
  · rw [toggleAt_getElem_ne l j i hij]

theorem assignTargets_selected {P : Type} (w2h : P → Hex) (h2w : Hex → P)
    (avail : List Hex) (units : List (UnitCore P)) (i : ℕ) :
    ((assignTargets w2h h2w avail units)[i]?).map (fun u => u.selected)
      = (units[i]?).map (fun u => u.selected) := by
  cases hu : units[i]? with
  | none =>
    have hlen : units.length ≤ i := List.getElem?_eq_none_iff.mp hu
    rw [List.getElem?_eq_none (by rw [assignTargets_length]; exact hlen)]
  | some u =>
    rw [assignTargets_getElem w2h h2w avail units i u hu]
    simp only [Option.map_some']
    by_cases hsel : u.selected
    · rw [if_pos hsel]
      cases avail[rankSel units i]? with
      | none => rfl
      | some d => simp [applyDest_selected]
    · rw [if_neg hsel]

theorem assignTargets_pos {P : Type} (w2h : P → Hex) (h2w : Hex → P)
    (avail : List Hex) (units : List (UnitCore P)) (i : ℕ) :
    ((assignTargets w2h h2w avail units)[i]?).map (fun u => u.pos)
      = (units[i]?).map (fun u => u.pos) := by
  cases hu : units[i]? with
  | none =>
    have hlen : units.length ≤ i := List.getElem?_eq_none_iff.mp hu
    rw [List.getElem?_eq_none (by rw [assignTargets_length]; exact hlen)]
  | some u =>
    rw [assignTargets_getElem w2h h2w avail units i u hu]
    simp only [Option.map_some']
    by_cases hsel : u.selected
    · rw [if_pos hsel]
      cases avail[rankSel units i]? with
      | none => rfl
      | some d => simp [applyDest_pos]
    · rw [if_neg hsel]

theorem moveOrder_length {P : Type} (w2h : P → Hex) (h2w : Hex → P) (tHex : Hex)
    (units : List (UnitCore P)) :
    (moveOrder w2h h2w tHex units).length = units.length := by
  simp only [moveOrder]
  split
  · rfl
  · split
    · rw [clearSelection_length, assignTargets_length]
    · rw [assignTargets_length]

theorem moveOrder_pos {P : Type} (w2h : P → Hex) (h2w : Hex → P) (tHex : Hex)
    (units : List (UnitCore P)) (i : ℕ) :
    ((moveOrder w2h h2w tHex units)[i]?).map (fun u => u.pos)
      = (units[i]?).map (fun u => u.pos) := by
  simp only [moveOrder]
  split
  · rfl
  · split
    · rw [clearSelection_getElem]
      rw [← assignTargets_pos w2h h2w (destsAssigned w2h tHex units) units i]
      cases (assignTargets w2h h2w (destsAssigned w2h tHex units) units)[i]? <;> rfl
    · exact assignTargets_pos w2h h2w _ units i

theorem handleClick_length {P : Type} (w2h : P → Hex) (h2w : Hex → P) (p : P)
    (units : List (UnitCore P)) :
    (handleClick w2h h2w p units).length = units.length := by
  rw [handleClick]
  cases hf : findHit w2h (w2h p) units with
  | some j => exact toggleAt_length units j
  | none => exact moveOrder_length w2h h2w (w2h p) units

theorem handleClick_pos {P : Type} (w2h : P → Hex) (h2w : Hex → P) (p : P)
    (units : List (UnitCore P)) (i : ℕ) :
    ((handleClick w2h h2w p units)[i]?).map (fun u => u.pos)
      = (units[i]?).map (fun u => u.pos) := by
  rw [handleClick]
  cases hf : findHit w2h (w2h p) units with
  | some j => exact toggleAt_pos units j i
  | none => exact moveOrder_pos w2h h2w (w2h p) units i

/-- Pointer-source choice of `ant_input` (lines 209-215): the window cursor
position is used when present, otherwise the first-pressed touch position,
otherwise the frame is a no-op. -/
def cursorChoice {A : Type} (mousePos touchPos : Option A) : Option A :=
  match mousePos with
  | some p => some p
  | none => touchPos

/-- Closest point of the drag rectangle [mn, mx] to point `p`, clamping each
axis (`handle_box_select` lines 460-464). -/
def closestInRect {K : Type} [LinearOrderedField K] (mn mx p : K × K) : K × K :=
  (min (max p.1 mn.1) mx.1, min (max p.2 mn.2) mx.2)

/-- Circle-vs-rectangle hit test of the box selection (lines 459-467): squared
distance from the unit position to the clamped closest point below the squared
hit radius. -/
def boxHit {K : Type} [LinearOrderedField K] (radius : K) (mn mx p : K × K) : Bool :=
  let c := closestInRect mn mx p
  decide ((p.1 - c.1) * (p.1 - c.1) + (p.2 - c.2) * (p.2 - c.2) < radius * radius)

/-- C1: when the occupied-cell set built from the non-selected units' target
cells is empty, the destination cells a move order's candidate walk assigns
are pairwise distinct, because each accepted candidate joins the occupied set
before the next candidate is considered. -/
theorem C1_destinations_distinct {P : Type} (w2h : P → Hex) (tHex : Hex)
    (units : List (UnitCore P)) (hocc : occupiedOf w2h units = []) :
    (destsAssigned w2h tHex units).Nodup := by
  rw [destsAssigned, hocc]
  exact availLoop_nodup (countSel units) (moveCandidates tHex) [] [] List.nodup_nil
    (fun a ha => absurd ha (List.not_mem_nil a))

/-- C1 witness: a concrete single-unit world with every unit selected, so the
occupied set is empty, and the assigned destinations have no duplicate. -/
theorem C1_destinations_distinct_witness :
    occupiedOf (fun x : ℤ => (⟨x, 0⟩ : Hex)) [⟨0, 0, [], true⟩] = [] ∧
    (destsAssigned (fun x : ℤ => (⟨x, 0⟩ : Hex)) ⟨2, 0⟩ [⟨0, 0, [], true⟩]).Nodup :=
  ⟨rfl, C1_destinations_distinct (fun x : ℤ => (⟨x, 0⟩ : Hex)) ⟨2, 0⟩ [⟨0, 0, [], true⟩] rfl⟩

/-- C2: a selected unit that the move order assigns destination cell `d` gets
as its new path queue the line walk from its current cell to `d` minus the
first cell, mapped to world positions, with the first waypoint then popped
into its target; the remaining walk is empty exactly when the unit's current
cell already is `d`, and in that case the target is set directly to the
destination cell's world position. -/
theorem C2_path_assignment {P : Type} (w2h : P → Hex) (h2w : Hex → P) (p : P)
    (units : List (UnitCore P)) (i : ℕ) (u : UnitCore P) (d : Hex)
    (hmiss : findHit w2h (w2h p) units = none)
    (hu : units[i]? = some u) (hsel : u.selected = true)
    (hd : (destsAssigned w2h (w2h p) units)[rankSel units i]? = some d) :
    (handleClick w2h h2w p units)[i]? =
      some (match ((lineTo (w2h u.pos) d).drop 1).map h2w with
            | [] => { u with path := [], target := h2w d }
            | t :: rest => { u with path := rest, target := t }) ∧
    (((lineTo (w2h u.pos) d).drop 1).map h2w = [] ↔ w2h u.pos = d) := by
  have hmove : handleClick w2h h2w p units = moveOrder w2h h2w (w2h p) units := by
    rw [handleClick, hmiss]
  have hall : ¬ units.all (fun u => !u.selected) = true := by
    simp only [List.all_eq_true]
    push_neg
    exact ⟨u, List.getElem?_mem hu, by simp [hsel]⟩
  have hne : (destsAssigned w2h (w2h p) units).isEmpty = false := by
    have hlt := (List.getElem?_eq_some_iff.mp hd).1
    cases he : destsAssigned w2h (w2h p) units with
    | nil => rw [he] at hlt; simp at hlt
    | cons a l => rfl
  constructor
  · rw [hmove]
    simp only [moveOrder, if_neg hall, hne, Bool.false_eq_true, if_false]
    rw [assignTargets_getElem w2h h2w _ units i u hu]
    rw [if_pos hsel, hd]
    rfl
  · rw [List.map_eq_nil_iff, lineTo_drop_one_eq_nil_iff]

/-- C2 witness: one selected unit at cell (0,0), click resolving to cell
(1,0); the unit is assigned the anchor cell itself and receives the one-step
walk, whose first (and only) waypoint is popped into the target. -/
theorem C2_path_assignment_witness :
    (handleClick (fun x : ℤ => (⟨x, 0⟩ : Hex)) (fun h => h.q) 1 [⟨0, 0, [], true⟩])[0]? =
      some (match ((lineTo ⟨0, 0⟩ ⟨1, 0⟩).drop 1).map
          (fun h : Hex => h.q) with
            | [] => ⟨0, (1 : ℤ), [], true⟩
            | t :: rest => ⟨0, t, rest, true⟩) ∧
    (((lineTo (⟨0, 0⟩ : Hex) ⟨1, 0⟩).drop 1).map (fun h : Hex => h.q) = [] ↔
      (⟨0, 0⟩ : Hex) = ⟨1, 0⟩) :=
  C2_path_assignment (fun x : ℤ => (⟨x, 0⟩ : Hex)) (fun h => h.q) 1
    [⟨0, 0, [], true⟩] 0 ⟨0, 0, [], true⟩ ⟨1, 0⟩ rfl rfl rfl (by decide)

/-- C4: a click on an empty cell with a non-empty selection clears the
Selected marker from every unit exactly when zero destinations were assigned;
when at least one destination is assigned, every unit's selection state is
left unchanged. -/
theorem C4_clear_iff_none_assigned {P : Type} (w2h : P → Hex) (h2w : Hex → P)
    (p : P) (units : List (UnitCore P))
    (hmiss : findHit w2h (w2h p) units = none)
    (hsel : units.any (fun u => u.selected) = true) :
    (destsAssigned w2h (w2h p) units = [] →
      ∀ i : ℕ, (handleClick w2h h2w p units)[i]? =
        units[i]?.map (fun u => { u with selected := false })) ∧
    (destsAssigned w2h (w2h p) units ≠ [] →
      ∀ i : ℕ, ((handleClick w2h h2w p units)[i]?).map (fun u => u.selected)
        = (units[i]?).map (fun u => u.selected)) := by
  have hmove : handleClick w2h h2w p units = moveOrder w2h h2w (w2h p) units := by
    rw [handleClick, hmiss]
  have hall : ¬ units.all (fun u => !u.selected) = true := by
    simp only [List.all_eq_true]
    push_neg
    simp only [List.any_eq_true] at hsel
    obtain ⟨x, hx, hxs⟩ := hsel
    exact ⟨x, hx, by simpa using hxs⟩
  constructor
  · intro hnil i
    rw [hmove]
    simp only [moveOrder, if_neg hall, hnil, List.isEmpty_nil, if_true]
    rw [assignTargets_nil_avail, clearSelection_getElem]
  · intro hnonnil i
    have hne : (destsAssigned w2h (w2h p) units).isEmpty = false := by
      cases he : destsAssigned w2h (w2h p) units with
      | nil => exact absurd he hnonnil
      | cons a l => rfl
    rw [hmove]
    simp only [moveOrder, if_neg hall, hne, Bool.false_eq_true, if_false]
    exact assignTargets_selected w2h h2w _ units i

/-- C4 witness: one selected unit, click on an empty cell; a destination is
assigned, so the unit's selection survives. -/
theorem C4_clear_iff_none_assigned_witness :
    ((handleClick (fun x : ℤ => (⟨x, 0⟩ : Hex)) (fun h => h.q) 1
        [⟨0, 0, [], true⟩])[0]?).map (fun u => u.selected)
      = (([⟨0, 0, [], true⟩] : List (UnitCore ℤ))[0]?).map (fun u => u.selected) :=
  (C4_clear_iff_none_assigned (fun x : ℤ => (⟨x, 0⟩ : Hex)) (fun h => h.q) 1
    [⟨0, 0, [], true⟩] rfl rfl).2 (by decide) 0

/-- C5: a click on a cell containing at least one unit's current position
toggles the Selected marker of the first such unit only; every other unit is
completely untouched, and a second identical click restores the entire unit
list to its original state. -/
theorem C5_click_toggle {P : Type} (w2h : P → Hex) (h2w : Hex → P) (p : P)
    (units : List (UnitCore P)) (j : ℕ)
    (hhit : findHit w2h (w2h p) units = some j) :
    (∀ u, units[j]? = some u →
      (handleClick w2h h2w p units)[j]? = some { u with selected := !u.selected }) ∧
    (∀ k, k ≠ j → (handleClick w2h h2w p units)[k]? = units[k]?) ∧
    handleClick w2h h2w p (handleClick w2h h2w p units) = units := by
  have hc : handleClick w2h h2w p units = toggleAt units j := by
    rw [handleClick, hhit]
  refine ⟨?_, ?_, ?_⟩
  · intro u hu
    rw [hc]
    exact toggleAt_getElem_self units j u hu
  · intro k hk
    rw [hc]
    exact toggleAt_getElem_ne units j k hk
  · rw [hc, handleClick, findHit_toggleAt, hhit]
    exact toggleAt_toggleAt units j

/-- C5 witness: one unselected unit at the clicked cell; the click selects it
and a second click deselects it again. -/
theorem C5_click_toggle_witness :
    (handleClick (fun x : ℤ => (⟨x, 0⟩ : Hex)) (fun h => h.q) 0
        [⟨0, 5, [7], false⟩])[0]? = some ⟨0, 5, [7], true⟩ ∧
    handleClick (fun x : ℤ => (⟨x, 0⟩ : Hex)) (fun h => h.q) 0
      (handleClick (fun x : ℤ => (⟨x, 0⟩ : Hex)) (fun h => h.q) 0
        [⟨0, 5, [7], false⟩]) = [⟨0, 5, [7], false⟩] := by
  have h := C5_click_toggle (fun x : ℤ => (⟨x, 0⟩ : Hex)) (fun h => h.q) 0
    [⟨0, 5, [7], false⟩] 0 rfl
  exact ⟨h.1 ⟨0, 5, [7], false⟩ rfl, h.2.2⟩

/-- C6 counterexample: cell (10,0) lies within grid distance 10 of the anchor
(0,0), but is not among the enumerated move-order candidates — the code calls
`spiral_range(anchor, 0..10)`, whose rings stop at radius 9. -/
theorem C6_radius_counterexample :
    hexDistance ⟨0, 0⟩ ⟨10, 0⟩ ≤ 10 ∧ (⟨10, 0⟩ : Hex) ∉ moveCandidates ⟨0, 0⟩ := by
  refine ⟨by decide, ?_⟩
  intro hmem
  rw [moveCandidates, mem_spiralRange] at hmem
  revert hmem
  decide

/-- C6 amended: the candidate destination cells a move order enumerates are
exactly the cells of `spiral_range(anchor, 0..10)` — every cell within grid
distance 9 of the anchor, each exactly once — with the anchor first and the
cells ordered center-outward by grid distance. -/
theorem C6_candidates_characterization (c : Hex) :
    (moveCandidates c).head? = some c ∧
    (∀ h : Hex, h ∈ moveCandidates c ↔ hexDistance c h ≤ 9) ∧
    (moveCandidates c).Nodup ∧
    (moveCandidates c).Pairwise (fun a b => hexDistance c a ≤ hexDistance c b) := by
  refine ⟨spiralRange_head c 10 (by omega), ?_, spiralRange_nodup c 10,
    spiralRange_sorted c 10⟩
  intro h
  rw [moveCandidates, mem_spiralRange]
  omega

/-- C7 counterexample: in a frame where both a mouse cursor position and a
first-pressed touch position are available, the code uses the mouse position
(`window.cursor_position()` is consulted before the touch source), not the
touch position the claim requires. -/
theorem C7_touch_priority_counterexample :
    cursorChoice (some (0 : ℤ)) (some 1) = some 0 ∧ (0 : ℤ) ≠ 1 :=
  ⟨rfl, by decide⟩

/-- C7 amended: the mouse cursor position takes priority whenever present; the
first-pressed touch position is consulted only when there is no cursor
position. -/
theorem C7_mouse_priority {A : Type} (m : A) (t : Option A) :
    cursorChoice (some m) t = some m ∧ cursorChoice none t = t :=
  ⟨rfl, rfl⟩

theorem sq_mono_of_nonneg {K : Type} [LinearOrderedField K] {a b : K}
    (ha : 0 ≤ a) (hab : a ≤ b) : a * a ≤ b * b := by nlinarith

theorem clamp_axis_sq_le {K : Type} [LinearOrderedField K]
    (lo1 hi1 lo2 hi2 x : K) (hlo : lo2 ≤ lo1) (hhi : hi1 ≤ hi2) (hord : lo1 ≤ hi1) :
    (x - min (max x lo2) hi2) * (x - min (max x lo2) hi2)
      ≤ (x - min (max x lo1) hi1) * (x - min (max x lo1) hi1) := by
  rcases le_total x lo1 with hx | hx
  · rw [max_eq_right hx, min_eq_left hord]
    rcases le_total x lo2 with hx2 | hx2
    · rw [max_eq_right hx2, min_eq_left (by linarith)]
      have h1 : 0 ≤ lo2 - x := by linarith
      have h2 : lo2 - x ≤ lo1 - x := by linarith
      nlinarith
    · rw [max_eq_left hx2, min_eq_left (by linarith)]
      nlinarith
  · rcases le_total x hi1 with hy | hy
    · rw [max_eq_left (le_trans hlo hx), min_eq_left (le_trans hy hhi)]
      rw [max_eq_left hx, min_eq_left hy]
    · rw [max_eq_left hx, min_eq_right hy]
      rw [max_eq_left (le_trans hlo hx)]
      rcases le_total x hi2 with hz | hz
      · rw [min_eq_left hz]
        nlinarith
      · rw [min_eq_right hz]
        have h1 : 0 ≤ x - hi2 := by linarith
        have h2 : x - hi2 ≤ x - hi1 := by linarith
        nlinarith

/-- C8: the box-select toggle candidate test is monotone in the drag
rectangle: a unit position passing the circle-vs-rectangle hit test for a
rectangle contained in a larger rectangle also passes it for the larger one. -/
theorem C8_box_select_monotone {K : Type} [LinearOrderedField K]
    (radius : K) (mn1 mx1 mn2 mx2 p : K × K)
    (h1 : mn2.1 ≤ mn1.1) (h2 : mn2.2 ≤ mn1.2)
    (h3 : mx1.1 ≤ mx2.1) (h4 : mx1.2 ≤ mx2.2)
    (h5 : mn1.1 ≤ mx1.1) (h6 : mn1.2 ≤ mx1.2)
    (hit : boxHit radius mn1 mx1 p = true) :
    boxHit radius mn2 mx2 p = true := by
  simp only [boxHit, closestInRect, decide_eq_true_eq] at hit ⊢
  have ha := clamp_axis_sq_le mn1.1 mx1.1 mn2.1 mx2.1 p.1 h1 h3 h5
  have hb := clamp_axis_sq_le mn1.2 mx1.2 mn2.2 mx2.2 p.2 h2 h4 h6
  linarith

/-- C8 witness: the unit at the origin passes the hit test for the degenerate
rectangle at the origin, hence also for the enclosing unit square. -/
theorem C8_box_select_monotone_witness :
    boxHit (1 : ℚ) (-1, -1) (1, 1) (0, 0) = true :=
  C8_box_select_monotone 1 (0, 0) (0, 0) (-1, -1) (1, 1) (0, 0)
    (by norm_num) (by norm_num) (by norm_num) (by norm_num)
    (by norm_num) (by norm_num)
    (by simp only [boxHit, closestInRect, decide_eq_true_eq]; norm_num)

/-- Motion speed of `move_ants` (line 532). -/
def speed : ℝ := 100

/-- Arrival radius of `move_ants` (line 533). -/
def arrivalRadius : ℝ := 2

/-- Length of a 2-d vector (`Vec2::length`); exact reals stand in for f32. -/
noncomputable def vlen (v : ℝ × ℝ) : ℝ := Real.sqrt (v.1 * v.1 + v.2 * v.2)

/-- Vec2::normalize — the vector divided by its length. -/
noncomputable def vnormalize (v : ℝ × ℝ) : ℝ × ℝ := (v.1 / vlen v, v.2 / vlen v)

/-- Vec2::normalize_or_zero — zero for the zero vector. -/
noncomputable def vnormalizeOrZero (v : ℝ × ℝ) : ℝ × ℝ :=
  if v = (0, 0) then (0, 0) else vnormalize v

/-- f32::atan2(y, x), modelled as the argument of the complex number x + y i. -/
noncomputable def atan2 (y x : ℝ) : ℝ := Complex.arg ⟨x, y⟩

/-- Full per-unit state: continuous position and facing rotation (the
Transform), linear velocity, immediate target, waypoint queue, Selected
marker, and the Queen role flag. -/
structure WUnit where
  pos : ℝ × ℝ
  rot : ℝ
  vel : ℝ × ℝ
  target : ℝ × ℝ
  path : List (ℝ × ℝ)
  selected : Bool
  queen : Bool

/-- One `move_ants` step for a single mobile unit (lines 535-569): while the
target is farther than the arrival radius, set velocity toward it at fixed
speed and face it; otherwise snap the position onto the target and pop the
next waypoint if any, facing and moving toward it immediately, or stop. -/
noncomputable def moveStep (u : WUnit) : WUnit :=
  let delta := (u.target.1 - u.pos.1, u.target.2 - u.pos.2)
  if vlen delta > arrivalRadius then
    { u with
      vel := (speed * (vnormalize delta).1, speed * (vnormalize delta).2)
      rot := if delta.1 * delta.1 + delta.2 * delta.2 > 0
        then atan2 delta.2 delta.1 else u.rot }
  else
    match u.path with
    | [] => { u with pos := u.target, vel := (0, 0) }
    | w :: rest =>
      let d2 := (w.1 - u.target.1, w.2 - u.target.2)
      { u with
        pos := u.target
        target := w
        path := rest
        rot := if d2.1 * d2.1 + d2.2 * d2.2 > 0
          then atan2 d2.2 d2.1 else u.rot
        vel := (speed * (vnormalizeOrZero d2).1, speed * (vnormalizeOrZero d2).2) }

/-- The `move_ants` system (lines 529-571): applies the motion step to every
unit in its query — all ants except the Queen, which `Without<Queen>`
excludes. -/
noncomputable def moveAnts (units : List WUnit) : List WUnit :=
  units.map (fun u => if u.queen then u else moveStep u)

/-- C3: a mobile (non-Queen) unit within the arrival radius of its target:
with an empty queue, one motion step sets the position exactly equal to the
target and the velocity to zero; with a non-empty queue, the step instead pops
the front waypoint into the target and immediately sets velocity (and, for a
nonzero direction, facing) toward it from the snapped position. -/
theorem C3_arrival_step (units : List WUnit) (i : ℕ) (u : WUnit)
    (hu : units[i]? = some u) (hq : u.queen = false)
    (hnear : ¬ vlen (u.target.1 - u.pos.1, u.target.2 - u.pos.2) > arrivalRadius) :
    (u.path = [] → (moveAnts units)[i]? =
      some { u with pos := u.target, vel := (0, 0) }) ∧
    (∀ w rest, u.path = w :: rest → (moveAnts units)[i]? =
      some { u with
        pos := u.target
        target := w
        path := rest
        rot := if (w.1 - u.target.1) * (w.1 - u.target.1) +
            (w.2 - u.target.2) * (w.2 - u.target.2) > 0
          then atan2 (w.2 - u.target.2) (w.1 - u.target.1) else u.rot
        vel := (speed * (vnormalizeOrZero (w.1 - u.target.1, w.2 - u.target.2)).1,
                speed * (vnormalizeOrZero (w.1 - u.target.1, w.2 - u.target.2)).2) }) := by
  have hmap : (moveAnts units)[i]? = some (moveStep u) := by
    rw [moveAnts, List.getElem?_map, hu]
    simp [hq]
  constructor
  · intro hempty
    rw [hmap, moveStep]
    simp only [if_neg hnear, hempty]
  · intro w rest hcons
    rw [hmap, moveStep]
    simp only [if_neg hnear, hcons]

/-- C3 witness: a worker sitting on its target with an empty queue; the step
leaves it on the target with zero velocity. -/
theorem C3_arrival_step_witness :
    (moveAnts [⟨(1, 2), 0, (5, 5), (1, 2), [], false, false⟩])[0]? =
      some ⟨(1, 2), 0, (0, 0), (1, 2), [], false, false⟩ :=
  (C3_arrival_step [⟨(1, 2), 0, (5, 5), (1, 2), [], false, false⟩] 0
    ⟨(1, 2), 0, (5, 5), (1, 2), [], false, false⟩ rfl rfl
    (by norm_num [vlen, arrivalRadius, Real.sqrt_zero])).1 rfl

/-- Square root of three, the pointy-top layout constant. -/
noncomputable def sqrt3 : ℝ := Real.sqrt 3

/-- Modelled from the spec: hexx `HexLayout::hex_to_world_pos` for the fixed
startup configuration — pointy-top orientation, scale (20, 20), origin zero
(spec 3, 4.1): the pointy forward matrix [√3, √3/2; 0, 3/2] scaled by 20. -/
noncomputable def hexToWorld (h : Hex) : ℝ × ℝ :=
  (20 * (sqrt3 * (h.q : ℝ) + sqrt3 / 2 * (h.r : ℝ)), 20 * (3 / 2 * (h.r : ℝ)))

/-- Modelled from the spec: fractional axial coordinates of a world position —
the inverse matrix [√3/3, -1/3; 0, 2/3] applied to the position divided by the
scale. -/
noncomputable def fracHex (p : ℝ × ℝ) : ℝ × ℝ :=
  (sqrt3 / 3 * (p.1 / 20) - 1 / 3 * (p.2 / 20), 2 / 3 * (p.2 / 20))

/-- Rounding of fractional axial coordinates over the reals (hexx
`Hex::round`, as in `roundHexQ`). -/
noncomputable def roundHexR (v : ℝ × ℝ) : Hex :=
  let xr := round v.1
  let yr := round v.2
  let x := v.1 - (xr : ℝ)
  let y := v.2 - (yr : ℝ)
  if |y| ≤ |x| then ⟨xr + round (x + y / 2), yr⟩
  else ⟨xr, yr + round (y + x / 2)⟩

/-- Modelled from the spec: hexx `HexLayout::world_pos_to_hex` — nearest-cell
rounding of the fractional axial coordinates (spec 4.1). -/
noncomputable def worldToHex (p : ℝ × ℝ) : Hex := roundHexR (fracHex p)

theorem fracHex_hexToWorld (h : Hex) :
    fracHex (hexToWorld h) = ((h.q : ℝ), (h.r : ℝ)) := by
  obtain ⟨q, r⟩ := h
  have h3 : sqrt3 * sqrt3 = 3 := Real.mul_self_sqrt (by norm_num)
  simp only [fracHex, hexToWorld, Prod.mk.injEq]
  constructor
  · linear_combination ((q : ℝ) / 3 + (r : ℝ) / 6) * h3
  · ring

theorem roundHexR_int (q r : ℤ) : roundHexR ((q : ℝ), (r : ℝ)) = ⟨q, r⟩ := by
  simp only [roundHexR]
  rw [round_intCast, round_intCast]
  simp

/-- C9: converting any hex to its world cell-center position and back yields
the hex again, for the fixed startup layout configuration. -/
theorem C9_round_trip (h : Hex) : worldToHex (hexToWorld h) = h := by
  rw [worldToHex, fracHex_hexToWorld, roundHexR_int]

/-- The UnitCore view of a full unit state — exactly the components
`handle_click` queries (`ant_q` and `selected_q`); the Queen marker is in
neither query. -/
def coreOf (w : WUnit) : UnitCore (ℝ × ℝ) := ⟨w.pos, w.target, w.path, w.selected⟩

/-- Reattach the `handle_click` core result to a full unit state: position,
target, path and Selected come from the core result; rotation, velocity and
the Queen flag were not in the system's queries and stay with the unit. -/
def mergeCore (w : WUnit) (c : UnitCore (ℝ × ℝ)) : WUnit :=
  { w with pos := c.pos, target := c.target, path := c.path, selected := c.selected }

/-- The `handle_click` system acting on full unit states. -/
def worldClick (w2h : ℝ × ℝ → Hex) (h2w : Hex → ℝ × ℝ) (p : ℝ × ℝ)
    (units : List WUnit) : List WUnit :=
  List.zipWith mergeCore units (handleClick w2h h2w p (units.map coreOf))

/-- Flip the Selected marker (`handle_box_select` lines 468-472). -/
def toggleSel (w : WUnit) : WUnit := { w with selected := !w.selected }

/-- The `handle_box_select` system (lines 432-475): toggle every unit whose
position passes the circle-vs-rectangle test against the drag rectangle built
from the press and release points, with hit radius the layout scale 20. -/
noncomputable def worldBox (start stop : ℝ × ℝ) (units : List WUnit) : List WUnit :=
  let mn := (min start.1 stop.1, min start.2 stop.2)
  let mx := (max start.1 stop.1, max start.2 stop.2)
  units.map (fun u => if boxHit 20 mn mx u.pos then toggleSel u else u)

/-- One frame operation on the unit list. -/
inductive WorldOp where
  | click (p : ℝ × ℝ)
  | box (a b : ℝ × ℝ)
  | move

/-- Apply one frame operation. -/
noncomputable def applyOp (w2h : ℝ × ℝ → Hex) (h2w : Hex → ℝ × ℝ) :
    WorldOp → List WUnit → List WUnit
  | WorldOp.click p, units => worldClick w2h h2w p units
  | WorldOp.box a b, units => worldBox a b units
  | WorldOp.move, units => moveAnts units

/-- Apply a sequence of frame operations, oldest first. -/
noncomputable def applyOps (w2h : ℝ × ℝ → Hex) (h2w : Hex → ℝ × ℝ) :
    List WorldOp → List WUnit → List WUnit
  | [], units => units
  | op :: ops, units => applyOps w2h h2w ops (applyOp w2h h2w op units)

/-- Positionally reassign the Queen flags of a unit list. -/
def reflagQueens : List WUnit → List Bool → List WUnit
  | us, [] => us
  | [], _ => []
  | u :: us, b :: bs => { u with queen := b } :: reflagQueens us bs

theorem reflagQueens_map_coreOf (us : List WUnit) (bs : List Bool) :
    (reflagQueens us bs).map coreOf = us.map coreOf := by
  induction us generalizing bs with
  | nil => cases bs <;> rfl
  | cons u us ih =>
    cases bs with
    | nil => rfl
    | cons b bs => simp [reflagQueens, coreOf, ih]

theorem zipWith_mergeCore_reflagQueens (us : List WUnit) (bs : List Bool)
    (cs : List (UnitCore (ℝ × ℝ))) :
    List.zipWith mergeCore (reflagQueens us bs) cs
      = reflagQueens (List.zipWith mergeCore us cs) bs := by
  induction us generalizing bs cs with
  | nil => cases bs <;> cases cs <;> rfl
  | cons u us ih =>
    cases bs with
    | nil => simp [reflagQueens]
    | cons b bs =>
      cases cs with
      | nil => simp [reflagQueens]
      | cons c cs =>
        simp only [reflagQueens, List.zipWith_cons_cons]
        rw [ih]
        rfl

theorem map_reflagQueens (f : WUnit → WUnit)
    (hf : ∀ u b, f { u with queen := b } = { f u with queen := b })
    (us : List WUnit) (bs : List Bool) :
    (reflagQueens us bs).map f = reflagQueens (us.map f) bs := by
  induction us generalizing bs with
  | nil => cases bs <;> rfl
  | cons u us ih =>
    cases bs with
    | nil => rfl
    | cons b bs =>
      simp only [reflagQueens, List.map_cons]
      rw [hf, ih]

theorem worldClick_reflagQueens (w2h : ℝ × ℝ → Hex) (h2w : Hex → ℝ × ℝ)
    (p : ℝ × ℝ) (us : List WUnit) (bs : List Bool) :
    worldClick w2h h2w p (reflagQueens us bs)
      = reflagQueens (worldClick w2h h2w p us) bs := by
  rw [worldClick, worldClick, reflagQueens_map_coreOf, zipWith_mergeCore_reflagQueens]

theorem worldBox_reflagQueens (a b : ℝ × ℝ) (us : List WUnit) (bs : List Bool) :
    worldBox a b (reflagQueens us bs) = reflagQueens (worldBox a b us) bs := by
  simp only [worldBox]
  apply map_reflagQueens
  intro u bq
  by_cases h : boxHit 20 (min a.1 b.1, min a.2 b.2) (max a.1 b.1, max a.2 b.2) u.pos = true
  · show (if boxHit 20 (min a.1 b.1, min a.2 b.2) (max a.1 b.1, max a.2 b.2) u.pos
        then toggleSel { u with queen := bq } else { u with queen := bq })
      = { (if boxHit 20 (min a.1 b.1, min a.2 b.2) (max a.1 b.1, max a.2 b.2) u.pos
        then toggleSel u else u) with queen := bq }
    rw [if_pos h, if_pos h]
    rfl
  · show (if boxHit 20 (min a.1 b.1, min a.2 b.2) (max a.1 b.1, max a.2 b.2) u.pos
        then toggleSel { u with queen := bq } else { u with queen := bq })
      = { (if boxHit 20 (min a.1 b.1, min a.2 b.2) (max a.1 b.1, max a.2 b.2) u.pos
        then toggleSel u else u) with queen := bq }
    rw [if_neg h, if_neg h]

theorem worldClick_fields (w2h : ℝ × ℝ → Hex) (h2w : Hex → ℝ × ℝ) (p : ℝ × ℝ)
    (units : List WUnit) (i : ℕ) :
    ((worldClick w2h h2w p units)[i]?).map (fun u => (u.pos, u.vel, u.rot, u.queen))
      = (units[i]?).map (fun u => (u.pos, u.vel, u.rot, u.queen)) := by
  rw [worldClick, List.getElem?_zipWith]
  cases hu : units[i]? with
  | none =>
    have h2 : (handleClick w2h h2w p (units.map coreOf))[i]? = none := by
      apply List.getElem?_eq_none
      rw [handleClick_length, List.length_map]
      exact List.getElem?_eq_none_iff.mp hu
    rw [h2]
  | some w =>
    have hpos := handleClick_pos w2h h2w p (units.map coreOf) i
    rw [List.getElem?_map, hu] at hpos
    cases hc : (handleClick w2h h2w p (units.map coreOf))[i]? with
    | none =>
      exfalso
      have hlen := List.getElem?_eq_none_iff.mp hc
      rw [handleClick_length, List.length_map] at hlen
      have : units[i]? = none := List.getElem?_eq_none hlen
      rw [this] at hu
      exact Option.noConfusion hu
    | some c =>
      rw [hc] at hpos
      simp only [Option.map_some', coreOf, Option.some.injEq] at hpos
      simp only [Option.map_some', Option.some.injEq, Prod.mk.injEq]
      simp [mergeCore, hpos]

theorem worldBox_fields (a b : ℝ × ℝ) (units : List WUnit) (i : ℕ) :
    ((worldBox a b units)[i]?).map (fun u => (u.pos, u.vel, u.rot, u.queen))
      = (units[i]?).map (fun u => (u.pos, u.vel, u.rot, u.queen)) := by
  simp only [worldBox]
  rw [List.getElem?_map]
  cases hu : units[i]? with
  | none => rfl
  | some w =>
    simp only [Option.map_some']
    by_cases h : boxHit 20 (min a.1 b.1, min a.2 b.2) (max a.1 b.1, max a.2 b.2) w.pos
    · simp [h, toggleSel]
    · simp [h]

theorem moveAnts_queen (units : List WUnit) (i : ℕ) (u : WUnit)
    (hu : units[i]? = some u) (hq : u.queen = true) :
    (moveAnts units)[i]? = some u := by
  rw [moveAnts, List.getElem?_map, hu]
  simp [hq]

/-- C10: the Queen participates in click handling and box selection exactly as
any other unit — the results do not depend on where the Queen flags sit, so a
selected Queen gets targets and paths assigned like any worker — while the
motion system's query excludes Queen units entirely; consequently the
position, velocity, facing and role of a Queen unit survive any sequence of
click, box-select and motion frames unchanged. -/
theorem C10_queen_immobile (w2h : ℝ × ℝ → Hex) (h2w : Hex → ℝ × ℝ) :
    (∀ (ops : List WorldOp) (units : List WUnit) (i : ℕ) (u : WUnit),
      units[i]? = some u → u.queen = true →
      ∃ v, (applyOps w2h h2w ops units)[i]? = some v ∧
        v.pos = u.pos ∧ v.vel = u.vel ∧ v.rot = u.rot ∧ v.queen = true) ∧
    (∀ p units flags, worldClick w2h h2w p (reflagQueens units flags)
      = reflagQueens (worldClick w2h h2w p units) flags) ∧
    (∀ a b units flags, worldBox a b (reflagQueens units flags)
      = reflagQueens (worldBox a b units) flags) := by
  refine ⟨?_, worldClick_reflagQueens w2h h2w, worldBox_reflagQueens⟩
  intro ops
  induction ops with
  | nil =>
    intro units i u hu hq
    exact ⟨u, hu, rfl, rfl, rfl, hq⟩
  | cons op ops ih =>
    intro units i u hu hq
    have hstep : ∃ v, (applyOp w2h h2w op units)[i]? = some v ∧
        v.pos = u.pos ∧ v.vel = u.vel ∧ v.rot = u.rot ∧ v.queen = true := by
      cases op with
      | click p =>
        have h := worldClick_fields w2h h2w p units i
        rw [hu] at h
        cases hv : (worldClick w2h h2w p units)[i]? with
        | none => rw [hv] at h; exact Option.noConfusion h
        | some v =>
          rw [hv] at h
          simp only [Option.map_some', Option.some.injEq, Prod.mk.injEq] at h
          exact ⟨v, hv, h.1, h.2.1, h.2.2.1, h.2.2.2.trans hq⟩
      | box a b =>
        have h := worldBox_fields a b units i
        rw [hu] at h
        cases hv : (worldBox a b units)[i]? with
        | none => rw [hv] at h; exact Option.noConfusion h
        | some v =>
          rw [hv] at h
          simp only [Option.map_some', Option.some.injEq, Prod.mk.injEq] at h
          exact ⟨v, hv, h.1, h.2.1, h.2.2.1, h.2.2.2.trans hq⟩
      | move => exact ⟨u, moveAnts_queen units i u hu hq, rfl, rfl, rfl, hq⟩
    obtain ⟨v, hv, hvp, hvv, hvr, hvq⟩ := hstep
    obtain ⟨t, ht, htp, htv, htr, htq⟩ := ih (applyOp w2h h2w op units) i v hv hvq
    exact ⟨t, ht, htp.trans hvp, htv.trans hvv, htr.trans hvr, htq⟩

/-- C10 witness: a selected Queen at position (1,2); a motion frame followed
by an empty-cell click frame leaves its position, velocity, facing and role
unchanged. -/
theorem C10_queen_immobile_witness :
    ∃ v, (applyOps (fun _ : ℝ × ℝ => (⟨0, 0⟩ : Hex)) (fun _ : Hex => ((0 : ℝ), (0 : ℝ)))
        [WorldOp.move] [⟨(1, 2), 3, (4, 5), (6, 7), [], true, true⟩])[0]? = some v ∧
      v.pos = ((1 : ℝ), (2 : ℝ)) ∧ v.vel = ((4 : ℝ), (5 : ℝ)) ∧ v.rot = (3 : ℝ) ∧
      v.queen = true := by
  have h := (C10_queen_immobile (fun _ : ℝ × ℝ => (⟨0, 0⟩ : Hex))
      (fun _ : Hex => ((0 : ℝ), (0 : ℝ)))).1 [WorldOp.move]
      [⟨(1, 2), 3, (4, 5), (6, 7), [], true, true⟩] 0
      ⟨(1, 2), 3, (4, 5), (6, 7), [], true, true⟩ rfl rfl
  exact h

end AntSim
